import Mathlib

/-
  Verification development for the cellx repository, file
  src/cellx/tools/projection.py.

  The compositor (ManifoldProjection2D) is embedded over exact rationals:
  a pixel value of a loaded image is a ℚ, a canvas cell is a ℤ holding a
  uint8 value (the numpy float -> uint8 assignment is modelled as
  truncation toward zero followed by reduction mod 256).

  scipy.stats.binned_statistic_2d is an external collaborator of the
  repository; its documented semantics (equal-width bins spanning the data
  range, degenerate ranges widened by one half on each side, np.digitize
  bin numbers with points on the rightmost edge moved into the last bin,
  expand_binnumbers=True) are embedded as the definitions adjLo, adjHi,
  edge, digitize, binnum below.

  The image loader / normalizer (_load_and_normalize) performs mean,
  standard-deviation and square-root arithmetic, so it is embedded over ℝ
  in a separate noncomputable section.
-/

namespace Cellx

/-- A loaded (resized, normalized) image: pixel value at row, column,
channel.  Corresponds to the arrays produced by `_load_and_normalize`. -/
abbrev Img : Type := ℕ → ℕ → Fin 3 → ℚ

/-- The composite canvas `imgrid`: a uint8-valued raster, one ℤ in
[0, 255] per row, column, channel. -/
abbrev Canvas : Type := ℕ → ℕ → Fin 3 → ℤ

/-- Truncation toward zero, the behaviour of a numpy float -> integer
cast. -/
def ratTrunc (q : ℚ) : ℤ :=
  if 0 ≤ q then ⌊q⌋ else ⌈q⌉

/-- The value stored when a float is assigned into a uint8 array cell:
truncate toward zero, reduce mod 2^8. -/
def uint8OfRat (q : ℚ) : ℤ :=
  ratTrunc q % 256

/-- Python builtin `min` over a nonempty collection (0 on the empty list,
which the source never produces). -/
def listMin : List ℚ → ℚ
  | [] => 0
  | x :: xs => xs.foldl min x

/-- Python builtin `max` over a nonempty collection. -/
def listMax : List ℚ → ℚ
  | [] => 0
  | x :: xs => xs.foldl max x

/-- scipy `_bin_edges`: a degenerate data range [v, v] is widened to
[v - 1/2, v + 1/2] so that the bins have finite width.  Lower end. -/
def adjLo (lo hi : ℚ) : ℚ :=
  if lo = hi then lo - 1/2 else lo

/-- scipy `_bin_edges`, upper end of the (possibly widened) range. -/
def adjHi (lo hi : ℚ) : ℚ :=
  if lo = hi then hi + 1/2 else hi

/-- The i-th bin edge of `np.linspace(lo, hi, bins + 1)`. -/
def edge (lo hi : ℚ) (bins : ℕ) (i : ℕ) : ℚ :=
  lo + (hi - lo) * i / bins

/-- The edges array returned by scipy for one dimension. -/
def edgesList (lo hi : ℚ) (bins : ℕ) : List ℚ :=
  (List.range (bins + 1)).map (edge lo hi bins)

/-- `np.digitize(v, edges)` for the increasing edges of `edge lo hi bins`:
the number of edges that are ≤ v. -/
def digitize (lo hi : ℚ) (bins : ℕ) (v : ℚ) : ℕ :=
  ((Finset.range (bins + 1)).filter (fun i => edge lo hi bins i ≤ v)).card

/-- scipy `_bin_numbers` for one dimension: digitize, then move values
lying on the rightmost edge one bin to the left so they count in the last
bin instead of as outliers. -/
def binnum (lo hi : ℚ) (bins : ℕ) (v : ℚ) : ℕ :=
  if v = edge lo hi bins bins then digitize lo hi bins v - 1
  else digitize lo hi bins v

/-- Expanded bin number of value v for a data column vs (bins over the
adjusted [min vs, max vs] range). -/
def binnumFor (vs : List ℚ) (bins : ℕ) (v : ℚ) : ℕ :=
  binnum (adjLo (listMin vs) (listMax vs)) (adjHi (listMin vs) (listMax vs)) bins v

/-- The per-point bin keys `bxy = zip(bn[0], bn[1])` of `__call__`:
point i is assigned the pair of expanded bin numbers of its first two
manifold components. -/
def binKeys (manifold : List (ℚ × ℚ)) (bins : ℕ) : List (ℕ × ℕ) :=
  manifold.map (fun v =>
    (binnumFor (manifold.map Prod.fst) bins v.1,
     binnumFor (manifold.map Prod.snd) bins v.2))

/-- The indices of the points assigned to bin key k, in increasing order:
the order in which the `for idx, b in enumerate(bxy)` loop appends to
`grid[b]`. -/
def members (keys : List (ℕ × ℕ)) (k : ℕ × ℕ) : List ℕ :=
  (List.range keys.length).filter (fun i => keys.getD i (0, 0) = k)

/-- The distinct bin keys in order of first occurrence: the iteration
order of the Python dict `grid`. -/
def uniqueKeys : List (ℕ × ℕ) → List (ℕ × ℕ)
  | [] => []
  | k :: ks => k :: uniqueKeys (ks.filter (fun x => x ≠ k))
termination_by l => l.length
decreasing_by
  simp only [List.length_cons]
  exact Nat.lt_succ_of_le (List.length_filter_le _ _)

/-- The state of a ManifoldProjection2D object: `self._image_files`,
`self._output_shape`, `self._images`. -/
structure Proj where
  image_files : List String
  output_shape : ℕ × ℕ
  images : List Img
deriving Inhabited

/-- `__init__`: store the file list and output shape; preload (and cache)
the images when `preload_images` is true, otherwise leave the cache
empty.  `load` is the environment's `_load_and_normalize` behaviour,
i.e. what `self._get_image` returns for each file. -/
def mkProjection (image_files : List String) (output_shape : ℕ × ℕ)
    (preload_images : Bool) (load : String → Img) : Proj :=
  { image_files := image_files
    output_shape := output_shape
    images := if preload_images then image_files.map load else [] }

/-- The image list `grid[k]` built by the lookup-dictionary loop: with a
nonempty preloaded cache (`if self._images:`) every member's cached image
is appended; otherwise only the first member's image is loaded (the
`if not grid[b]:` guard). -/
def bucketImages (p : Proj) (load : String → Img) (keys : List (ℕ × ℕ))
    (k : ℕ × ℕ) : List Img :=
  if p.images.isEmpty then
    match members keys k with
    | [] => []
    | i :: _ => [load (p.image_files.getD i "")]
  else
    (members keys k).map (fun i => p.images.getD i default)

/-- `np.mean(np.stack(images, axis=0), axis=0)`: the pointwise mean of a
stack of images. -/
def meanStack (imgs : List Img) : Img :=
  fun i j c => ((imgs.map (fun im => im i j c)).sum) / (imgs.length : ℚ)

/-- Membership of canvas cell (i, j) in the destination rectangle
`imgrid[blockx, blocky]` of bin key k, where
`blockx = slice(k.1 * F.1 - half.1, (k.1 + 1) * F.1 - half.1)` and
similarly for blocky. -/
def inTile (F half : ℕ × ℕ) (k : ℕ × ℕ) (i j : ℕ) : Prop :=
  k.1 * F.1 - half.1 ≤ i ∧ i < (k.1 + 1) * F.1 - half.1 ∧
  k.2 * F.2 - half.2 ≤ j ∧ j < (k.2 + 1) * F.2 - half.2

instance (F half k : ℕ × ℕ) (i j : ℕ) : Decidable (inTile F half k i j) :=
  inferInstanceAs (Decidable (_ ∧ _ ∧ _ ∧ _))

/-- `imgrid[blockx, blocky, :] = im`: write image im into the tile of bin
key k, leaving every other cell of the canvas unchanged. -/
def tileWrite (F half : ℕ × ℕ) (k : ℕ × ℕ) (im : Img) (cv : Canvas) : Canvas :=
  fun i j c =>
    if inTile F half k i j then
      uint8OfRat (im (i - (k.1 * F.1 - half.1)) (j - (k.2 * F.2 - half.2)) c)
    else cv i j c

/-- The shape argument of `np.zeros` allocating `imgrid`:
`((full_bins[0] + 1) * bins + half_bins[0], (full_bins[1] + 1) * bins +
half_bins[1], 3)`. -/
def canvasShape (F : ℕ × ℕ) (bins : ℕ) : ℕ × ℕ × ℕ :=
  ((F.1 + 1) * bins + F.1 / 2, (F.2 + 1) * bins + F.2 / 2, 3)

/-- The `for xy, images in grid.items():` loop: starting from the zero
canvas, write the mean image of each bucket into its tile. -/
def buildCanvas (p : Proj) (load : String → Img) (keys : List (ℕ × ℕ)) : Canvas :=
  (uniqueKeys keys).foldl
    (fun cv k =>
      tileWrite p.output_shape (p.output_shape.1 / 2, p.output_shape.2 / 2) k
        (meanStack (bucketImages p load keys k)) cv)
    (fun _ _ _ => 0)

/-- The x bin-edges array `xe` returned by the binning of `__call__`. -/
def xEdgesOf (manifold : List (ℚ × ℚ)) (bins : ℕ) : List ℚ :=
  edgesList (adjLo (listMin (manifold.map Prod.fst)) (listMax (manifold.map Prod.fst)))
            (adjHi (listMin (manifold.map Prod.fst)) (listMax (manifold.map Prod.fst))) bins

/-- The y bin-edges array `ye` returned by the binning of `__call__`. -/
def yEdgesOf (manifold : List (ℚ × ℚ)) (bins : ℕ) : List ℚ :=
  edgesList (adjLo (listMin (manifold.map Prod.snd)) (listMax (manifold.map Prod.snd)))
            (adjHi (listMin (manifold.map Prod.snd)) (listMax (manifold.map Prod.snd))) bins

/-- The pair returned by `__call__`: the canvas (with the shape it was
allocated with) and `extent = [min(xe), max(xe), min(ye), max(ye)]`. -/
structure ProjResult where
  shape : ℕ × ℕ × ℕ
  canvas : Canvas
  extent : List ℚ

/-- The body of `__call__` after the assertion has passed. -/
def callImpl (p : Proj) (load : String → Img) (manifold : List (ℚ × ℚ))
    (bins : ℕ) : ProjResult :=
  { shape := canvasShape p.output_shape bins
    canvas := buildCanvas p load (binKeys manifold bins)
    extent := [listMin (xEdgesOf manifold bins), listMax (xEdgesOf manifold bins),
               listMin (yEdgesOf manifold bins), listMax (yEdgesOf manifold bins)] }

/-- `__call__`: `assert manifold.shape[0] == len(self._image_files)`, then
bin, composite and return; the assertion failure is the error outcome. -/
def call (p : Proj) (load : String → Img) (manifold : List (ℚ × ℚ))
    (bins : ℕ) : Except Unit ProjResult :=
  if manifold.length = p.image_files.length then
    Except.ok (callImpl p load manifold bins)
  else Except.error ()

/-- `__call__` viewed as a method acting on the object state: the state
after the call paired with the call's outcome.  The method body never
assigns to self, so the state component is returned as received. -/
def callM (p : Proj) (load : String → Img) (manifold : List (ℚ × ℚ))
    (bins : ℕ) : Proj × Except Unit ProjResult :=
  (p, call p load manifold bins)

/-- A trivial image loader used to instantiate universally quantified
statements at concrete inputs. -/
def load0 : String → Img := fun _ _ _ _ => 0

/-- `np.clip(x, lo, hi)`: at most hi, at least lo. -/
noncomputable def npClip (x lo hi : ℝ) : ℝ := min (max x lo) hi

/-- `np.mean(d)` over one channel of the resized image. -/
noncomputable def npMean (d : List ℝ) : ℝ := d.sum / d.length

/-- `np.std(d)`: the population standard deviation, the square root of the
mean squared deviation from the mean. -/
noncomputable def npStd (d : List ℝ) : ℝ :=
  Real.sqrt (((d.map (fun v => (v - npMean d) ^ 2)).sum) / d.length)

/-- The `a_std` lambda of `_load_and_normalize`:
`np.max([np.std(d), 1. / np.sqrt(n_pixels)])` where n_pixels is the
product of the output shape. -/
noncomputable def a_std (d : List ℝ) (n_pixels : ℕ) : ℝ :=
  max (npStd d) (1 / Real.sqrt n_pixels)

/-- The `nrm` lambda applied to one channel:
`np.clip((d - np.mean(d)) / a_std(d), -4., 4.)`. -/
noncomputable def nrmChannel (d : List ℝ) (n_pixels : ℕ) : List ℝ :=
  d.map (fun v => npClip ((v - npMean d) / a_std d n_pixels) (-4) 4)

/-- `_load_and_normalize` after the resize: normalize every channel with
nrm, then rescale the whole image with
`np.clip(255. * ((image + 1.) / 5.), 0, 255)`.  The image is a list of
channels, each a list of pixel values. -/
noncomputable def load_and_normalize (channels : List (List ℝ)) (n_pixels : ℕ) :
    List (List ℝ) :=
  (channels.map (fun d => nrmChannel d n_pixels)).map
    (fun d => d.map (fun v => npClip (255 * ((v + 1) / 5)) 0 255))

theorem foldl_min_le_init (l : List ℚ) : ∀ a : ℚ, l.foldl min a ≤ a := by
  induction l with
  | nil => intro a; exact le_refl a
  | cons b bs ih => intro a; exact le_trans (ih (min a b)) (min_le_left a b)

theorem foldl_min_le_mem (l : List ℚ) (x : ℚ) (hx : x ∈ l) :
    ∀ a : ℚ, l.foldl min a ≤ x := by
  induction l with
  | nil => cases hx
  | cons b bs ih =>
    intro a
    rcases List.mem_cons.mp hx with h | h
    · subst h
      exact le_trans (foldl_min_le_init bs (min a x)) (min_le_right a x)
    · exact ih h (min a b)

theorem listMin_le (l : List ℚ) (x : ℚ) (hx : x ∈ l) : listMin l ≤ x := by
  cases l with
  | nil => cases hx
  | cons b bs =>
    rcases List.mem_cons.mp hx with h | h
    · subst h; exact foldl_min_le_init bs x
    · exact foldl_min_le_mem bs x h b

theorem init_le_foldl_max (l : List ℚ) : ∀ a : ℚ, a ≤ l.foldl max a := by
  induction l with
  | nil => intro a; exact le_refl a
  | cons b bs ih => intro a; exact le_trans (le_max_left a b) (ih (max a b))

theorem mem_le_foldl_max (l : List ℚ) (x : ℚ) (hx : x ∈ l) :
    ∀ a : ℚ, x ≤ l.foldl max a := by
  induction l with
  | nil => cases hx
  | cons b bs ih =>
    intro a
    rcases List.mem_cons.mp hx with h | h
    · subst h
      exact le_trans (le_max_right a x) (init_le_foldl_max bs (max a x))
    · exact ih h (max a b)

theorem le_listMax (l : List ℚ) (x : ℚ) (hx : x ∈ l) : x ≤ listMax l := by
  cases l with
  | nil => cases hx
  | cons b bs =>
    rcases List.mem_cons.mp hx with h | h
    · subst h; exact init_le_foldl_max bs x
    · exact mem_le_foldl_max bs x h b

theorem listMin_le_listMax (l : List ℚ) (h : l ≠ []) : listMin l ≤ listMax l := by
  cases l with
  | nil => exact absurd rfl h
  | cons b bs =>
    exact le_trans (foldl_min_le_init bs b) (init_le_foldl_max bs b)

theorem edge_zero (lo hi : ℚ) (bins : ℕ) : edge lo hi bins 0 = lo := by
  simp [edge]

theorem edge_last (lo hi : ℚ) (bins : ℕ) (hb : bins ≠ 0) :
    edge lo hi bins bins = hi := by
  have hb' : (bins : ℚ) ≠ 0 := Nat.cast_ne_zero.mpr hb
  rw [edge, mul_div_assoc, div_self hb', mul_one]
  ring

theorem edgesList_ne_nil (lo hi : ℚ) (bins : ℕ) : edgesList lo hi bins ≠ [] := by
  intro h
  have := congrArg List.length h
  simp [edgesList] at this

theorem digitize_pos (lo hi v : ℚ) (bins : ℕ) (h0 : lo ≤ v) :
    0 < digitize lo hi bins v := by
  refine Finset.card_pos.mpr ⟨0, Finset.mem_filter.mpr
    ⟨Finset.mem_range.mpr (Nat.succ_pos bins), ?_⟩⟩
  rw [edge_zero]
  exact h0

theorem digitize_le_of_lt_last (lo hi v : ℚ) (bins : ℕ)
    (hv : ¬ edge lo hi bins bins ≤ v) : digitize lo hi bins v ≤ bins := by
  have hsub : (Finset.range (bins + 1)).filter (fun i => edge lo hi bins i ≤ v)
      ⊆ Finset.range bins := by
    intro i hmem
    rcases Finset.mem_filter.mp hmem with ⟨hir, hie⟩
    have hlt := Finset.mem_range.mp hir
    refine Finset.mem_range.mpr ?_
    rcases Nat.lt_succ_iff_lt_or_eq.mp hlt with h | h
    · exact h
    · subst h; exact absurd hie hv
  calc digitize lo hi bins v ≤ (Finset.range bins).card := Finset.card_le_card hsub
  _ = bins := Finset.card_range bins

theorem digitize_le_succ (lo hi v : ℚ) (bins : ℕ) :
    digitize lo hi bins v ≤ bins + 1 := by
  calc digitize lo hi bins v ≤ (Finset.range (bins + 1)).card :=
        Finset.card_filter_le _ _
  _ = bins + 1 := Finset.card_range _

theorem two_le_digitize (lo hi v : ℚ) (bins : ℕ) (hb : bins ≠ 0)
    (h0 : lo ≤ v) (hl : edge lo hi bins bins ≤ v) :
    2 ≤ digitize lo hi bins v := by
  refine Finset.one_lt_card.mpr ⟨0, ?_, bins, ?_, ?_⟩
  · exact Finset.mem_filter.mpr
      ⟨Finset.mem_range.mpr (Nat.succ_pos bins), by rw [edge_zero]; exact h0⟩
  · exact Finset.mem_filter.mpr
      ⟨Finset.mem_range.mpr (Nat.lt_succ_self bins), hl⟩
  · omega

theorem binnum_bounds (lo hi v : ℚ) (bins : ℕ) (hb : 1 ≤ bins)
    (h1 : lo ≤ v) (h2 : v ≤ hi) :
    1 ≤ binnum (adjLo lo hi) (adjHi lo hi) bins v ∧
    binnum (adjLo lo hi) (adjHi lo hi) bins v ≤ bins := by
  have hb0 : bins ≠ 0 := by omega
  have hlo : adjLo lo hi ≤ v := by
    unfold adjLo
    split
    · rename_i heq; linarith
    · exact h1
  have hlast : edge (adjLo lo hi) (adjHi lo hi) bins bins = adjHi lo hi :=
    edge_last _ _ _ hb0
  unfold binnum
  split
  · rename_i heq
    have h2d := two_le_digitize (adjLo lo hi) (adjHi lo hi) v bins hb0 hlo
      (le_of_eq heq.symm)
    have hcard := digitize_le_succ (adjLo lo hi) (adjHi lo hi) v bins
    omega
  · rename_i hne
    have hvle : ¬ edge (adjLo lo hi) (adjHi lo hi) bins bins ≤ v := by
      intro hcon
      rw [hlast] at hcon
      by_cases heq : lo = hi
      · unfold adjHi at hcon
        rw [if_pos heq] at hcon
        linarith
      · unfold adjHi at hcon
        rw [if_neg heq] at hcon
        apply hne
        rw [hlast]
        unfold adjHi
        rw [if_neg heq]
        linarith
    have hp := digitize_pos (adjLo lo hi) (adjHi lo hi) v bins hlo
    have hl := digitize_le_of_lt_last (adjLo lo hi) (adjHi lo hi) v bins hvle
    omega

theorem binnumFor_bounds (vs : List ℚ) (bins : ℕ) (v : ℚ) (hb : 1 ≤ bins)
    (hv : v ∈ vs) : 1 ≤ binnumFor vs bins v ∧ binnumFor vs bins v ≤ bins :=
  binnum_bounds (listMin vs) (listMax vs) v bins hb
    (listMin_le vs v hv) (le_listMax vs v hv)

theorem listMin_single (x : ℚ) : listMin [x] = x := rfl

theorem listMax_single (x : ℚ) : listMax [x] = x := rfl

theorem adjLo_self (v : ℚ) : adjLo v v = v - 1/2 := if_pos rfl

theorem adjHi_self (v : ℚ) : adjHi v v = v + 1/2 := if_pos rfl

theorem digitize_one (lo hi v : ℚ) (h0 : edge lo hi 1 0 ≤ v)
    (h1 : ¬ edge lo hi 1 1 ≤ v) : digitize lo hi 1 v = 1 := by
  unfold digitize
  have hset : (Finset.range 2).filter (fun i => edge lo hi 1 i ≤ v) = {0} := by
    ext i
    simp only [Finset.mem_filter, Finset.mem_range, Finset.mem_singleton]
    constructor
    · rintro ⟨hi2, hle⟩
      rcases (by omega : i = 0 ∨ i = 1) with rfl | rfl
      · rfl
      · exact absurd hle h1
    · rintro rfl
      exact ⟨by omega, h0⟩
  rw [hset, Finset.card_singleton]

theorem binnumFor_single (v : ℚ) : binnumFor [v] 1 v = 1 := by
  unfold binnumFor
  rw [listMin_single, listMax_single]
  unfold binnum
  have he1 : edge (adjLo v v) (adjHi v v) 1 1 = v + 1/2 := by
    rw [adjLo_self, adjHi_self]
    unfold edge
    push_cast
    ring
  have he0 : edge (adjLo v v) (adjHi v v) 1 0 = v - 1/2 := by
    rw [adjLo_self, adjHi_self]
    unfold edge
    push_cast
    ring
  rw [if_neg (by rw [he1]; intro h; exact absurd h (by linarith))]
  exact digitize_one _ _ _ (by rw [he0]; linarith) (by rw [he1]; intro h; linarith)

theorem binKeys_single (x y : ℚ) : binKeys [(x, y)] 1 = [(1, 1)] := by
  unfold binKeys
  simp only [List.map_cons, List.map_nil]
  rw [binnumFor_single, binnumFor_single]

theorem binKeys_bounds (m : List (ℚ × ℚ)) (bins : ℕ) (hb : 1 ≤ bins)
    (k : ℕ × ℕ) (hk : k ∈ binKeys m bins) :
    1 ≤ k.1 ∧ k.1 ≤ bins ∧ 1 ≤ k.2 ∧ k.2 ≤ bins := by
  rcases List.mem_map.mp hk with ⟨v, hv, rfl⟩
  have hx := binnumFor_bounds (m.map Prod.fst) bins v.1 hb
    (List.mem_map_of_mem _ hv)
  have hy := binnumFor_bounds (m.map Prod.snd) bins v.2 hb
    (List.mem_map_of_mem _ hv)
  exact ⟨hx.1, hx.2, hy.1, hy.2⟩

theorem mem_uniqueKeys (l : List (ℕ × ℕ)) (a : ℕ × ℕ) :
    a ∈ uniqueKeys l ↔ a ∈ l := by
  induction l using uniqueKeys.induct with
  | case1 => simp [uniqueKeys]
  | case2 k ks ih =>
    rw [uniqueKeys]
    constructor
    · intro h
      rcases List.mem_cons.mp h with h | h
      · exact h ▸ List.mem_cons_self k ks
      · exact List.mem_cons_of_mem k (List.mem_filter.mp (ih.mp h)).1
    · intro h
      rcases List.mem_cons.mp h with h | h
      · exact h ▸ List.mem_cons_self _ _
      · by_cases hak : a = k
        · exact hak ▸ List.mem_cons_self _ _
        · refine List.mem_cons_of_mem _ (ih.mpr (List.mem_filter.mpr ⟨h, ?_⟩))
          simp [hak]

theorem nodup_uniqueKeys (l : List (ℕ × ℕ)) : (uniqueKeys l).Nodup := by
  induction l using uniqueKeys.induct with
  | case1 => simp [uniqueKeys]
  | case2 k ks ih =>
    rw [uniqueKeys]
    refine List.nodup_cons.mpr ⟨?_, ih⟩
    intro hmem
    have := (List.mem_filter.mp ((mem_uniqueKeys _ _).mp hmem)).2
    simp at this

theorem mem_members (keys : List (ℕ × ℕ)) (k : ℕ × ℕ) (i : ℕ) :
    i ∈ members keys k ↔ i < keys.length ∧ keys.getD i (0, 0) = k := by
  simp [members, List.mem_filter, List.mem_range]

theorem members_ne_nil (keys : List (ℕ × ℕ)) (k : ℕ × ℕ) (hk : k ∈ keys) :
    members keys k ≠ [] := by
  rcases List.mem_iff_getElem.mp hk with ⟨i, hi, hget⟩
  intro hnil
  have : i ∈ members keys k := by
    rw [mem_members]
    exact ⟨hi, by rw [List.getD_eq_getElem _ _ hi]; exact hget⟩
  rw [hnil] at this
  cases this

theorem meanStack_single (im : Img) (i j : ℕ) (c : Fin 3) :
    meanStack [im] i j c = im i j c := by
  simp [meanStack]

theorem inTile_interval_eq (a b fdim half i : ℕ) (ha : 1 ≤ a) (hb : 1 ≤ b)
    (hh : half ≤ fdim)
    (hia : a * fdim - half ≤ i ∧ i < (a + 1) * fdim - half)
    (hib : b * fdim - half ≤ i ∧ i < (b + 1) * fdim - half) : a = b := by
  have ea : (a + 1) * fdim = a * fdim + fdim := by ring
  have eb : (b + 1) * fdim = b * fdim + fdim := by ring
  rw [ea] at hia
  rw [eb] at hib
  have hF : 0 < fdim := by
    rcases Nat.eq_zero_or_pos fdim with h0 | h
    · rw [h0] at hia
      omega
    · exact h
  have haF : fdim ≤ a * fdim := Nat.le_mul_of_pos_left fdim ha
  have hbF : fdim ≤ b * fdim := Nat.le_mul_of_pos_left fdim hb
  have h1 : b * fdim < a * fdim + fdim := by omega
  have h2 : a * fdim < b * fdim + fdim := by omega
  have hba : b < a + 1 := by
    have : b * fdim < (a + 1) * fdim := by rw [ea]; exact h1
    exact lt_of_mul_lt_mul_right this (Nat.zero_le fdim)
  have hab : a < b + 1 := by
    have : a * fdim < (b + 1) * fdim := by rw [eb]; exact h2
    exact lt_of_mul_lt_mul_right this (Nat.zero_le fdim)
  omega

theorem inTile_disjoint (F half : ℕ × ℕ) (k k' : ℕ × ℕ) (i j : ℕ)
    (hk1 : 1 ≤ k.1) (hk2 : 1 ≤ k.2) (hk1' : 1 ≤ k'.1) (hk2' : 1 ≤ k'.2)
    (hh1 : half.1 ≤ F.1) (hh2 : half.2 ≤ F.2)
    (ht : inTile F half k i j) (ht' : inTile F half k' i j) : k = k' := by
  obtain ⟨hx1, hx2, hy1, hy2⟩ := ht
  obtain ⟨hx1', hx2', hy1', hy2'⟩ := ht'
  have e1 : k.1 = k'.1 :=
    inTile_interval_eq k.1 k'.1 F.1 half.1 i hk1 hk1' hh1 ⟨hx1, hx2⟩ ⟨hx1', hx2'⟩
  have e2 : k.2 = k'.2 :=
    inTile_interval_eq k.2 k'.2 F.2 half.2 j hk2 hk2' hh2 ⟨hy1, hy2⟩ ⟨hy1', hy2'⟩
  exact Prod.ext e1 e2

theorem foldl_write_preserve (F half : ℕ × ℕ) (g : ℕ × ℕ → Img) (k : ℕ × ℕ)
    (i j : ℕ) (c : Fin 3) (hk1 : 1 ≤ k.1) (hk2 : 1 ≤ k.2)
    (hh1 : half.1 ≤ F.1) (hh2 : half.2 ≤ F.2) (hin : inTile F half k i j) :
    ∀ (l : List (ℕ × ℕ)) (cv : Canvas),
      (∀ k' ∈ l, k' ≠ k ∧ 1 ≤ k'.1 ∧ 1 ≤ k'.2) →
      (l.foldl (fun cv k' => tileWrite F half k' (g k') cv) cv) i j c = cv i j c := by
  intro l
  induction l with
  | nil => intro cv _; rfl
  | cons a as ih =>
    intro cv hl
    rw [List.foldl_cons]
    rw [ih _ (fun k' h' => hl k' (List.mem_cons_of_mem a h'))]
    obtain ⟨hne, ha1, ha2⟩ := hl a (List.mem_cons_self a as)
    unfold tileWrite
    rw [if_neg]
    intro hin'
    exact hne (inTile_disjoint F half a k i j ha1 ha2 hk1 hk2 hh1 hh2 hin' hin)

theorem foldl_write_read (F half : ℕ × ℕ) (g : ℕ × ℕ → Img) (k : ℕ × ℕ)
    (i j : ℕ) (c : Fin 3) (hk1 : 1 ≤ k.1) (hk2 : 1 ≤ k.2)
    (hh1 : half.1 ≤ F.1) (hh2 : half.2 ≤ F.2) (hin : inTile F half k i j) :
    ∀ (l : List (ℕ × ℕ)) (cv : Canvas), l.Nodup → k ∈ l →
      (∀ k' ∈ l, 1 ≤ k'.1 ∧ 1 ≤ k'.2) →
      (l.foldl (fun cv k' => tileWrite F half k' (g k') cv) cv) i j c
        = uint8OfRat (g k (i - (k.1 * F.1 - half.1)) (j - (k.2 * F.2 - half.2)) c) := by
  intro l
  induction l with
  | nil => intro cv _ hmem _; cases hmem
  | cons a as ih =>
    intro cv hnd hmem hall
    rw [List.foldl_cons]
    by_cases hak : a = k
    · subst hak
      rw [foldl_write_preserve F half g a i j c hk1 hk2 hh1 hh2 hin as _ ?side]
      case side =>
        intro k' h'
        refine ⟨?_, (hall k' (List.mem_cons_of_mem a h')).1,
                (hall k' (List.mem_cons_of_mem a h')).2⟩
        intro he
        exact (List.nodup_cons.mp hnd).1 (he ▸ h')
      unfold tileWrite
      rw [if_pos hin]
    · refine ih _ (List.nodup_cons.mp hnd).2 ?_
        (fun k' h' => hall k' (List.mem_cons_of_mem a h'))
      rcases List.mem_cons.mp hmem with h | h
      · exact absurd h.symm hak
      · exact h

theorem uniqueKeys_nil : uniqueKeys [] = [] := by
  rw [uniqueKeys]

theorem uniqueKeys_single (k : ℕ × ℕ) : uniqueKeys [k] = [k] := by
  rw [uniqueKeys]
  simp [uniqueKeys_nil]

theorem members_single (k : ℕ × ℕ) : members [k] k = [0] := by
  simp [members, List.range_succ]

theorem getD_map_load (files : List String) (load : String → Img) (i : ℕ)
    (hi : i < files.length) :
    (files.map load).getD i default = load (files.getD i "") := by
  rw [List.getD_eq_getElem _ _ (by simpa using hi), List.getD_eq_getElem _ _ hi]
  simp

theorem bucketImages_single (f : String) (F : ℕ × ℕ) (preload : Bool)
    (load : String → Img) (k : ℕ × ℕ) :
    bucketImages (mkProjection [f] F preload load) load [k] k = [load f] := by
  cases preload <;> simp [bucketImages, mkProjection, members_single]

theorem buildCanvas_eval (p : Proj) (load : String → Img) (keys : List (ℕ × ℕ))
    (hall : ∀ k' ∈ keys, 1 ≤ k'.1 ∧ 1 ≤ k'.2) (k : ℕ × ℕ) (hk : k ∈ keys)
    (dx dy : ℕ) (c : Fin 3)
    (hdx : dx < p.output_shape.1) (hdy : dy < p.output_shape.2) :
    buildCanvas p load keys
      (k.1 * p.output_shape.1 - p.output_shape.1 / 2 + dx)
      (k.2 * p.output_shape.2 - p.output_shape.2 / 2 + dy) c
      = uint8OfRat (meanStack (bucketImages p load keys k) dx dy c) := by
  obtain ⟨hk1, hk2⟩ := hall k hk
  have hA1 : p.output_shape.1 ≤ k.1 * p.output_shape.1 :=
    Nat.le_mul_of_pos_left _ (by omega)
  have hA2 : p.output_shape.2 ≤ k.2 * p.output_shape.2 :=
    Nat.le_mul_of_pos_left _ (by omega)
  have e1 : (k.1 + 1) * p.output_shape.1
      = k.1 * p.output_shape.1 + p.output_shape.1 := by ring
  have e2 : (k.2 + 1) * p.output_shape.2
      = k.2 * p.output_shape.2 + p.output_shape.2 := by ring
  have hin : inTile p.output_shape (p.output_shape.1 / 2, p.output_shape.2 / 2) k
      (k.1 * p.output_shape.1 - p.output_shape.1 / 2 + dx)
      (k.2 * p.output_shape.2 - p.output_shape.2 / 2 + dy) := by
    unfold inTile
    omega
  have hread := foldl_write_read p.output_shape
    (p.output_shape.1 / 2, p.output_shape.2 / 2)
    (fun k' => meanStack (bucketImages p load keys k')) k
    (k.1 * p.output_shape.1 - p.output_shape.1 / 2 + dx)
    (k.2 * p.output_shape.2 - p.output_shape.2 / 2 + dy) c hk1 hk2
    (Nat.div_le_self _ _) (Nat.div_le_self _ _) hin (uniqueKeys keys)
    (fun _ _ _ => 0) (nodup_uniqueKeys keys) ((mem_uniqueKeys keys k).mpr hk)
    (fun k' h' => hall k' ((mem_uniqueKeys keys k').mp h'))
  unfold buildCanvas
  exact hread.trans (by rw [Nat.add_sub_cancel_left, Nat.add_sub_cancel_left])

theorem bucketImages_preload (files : List String) (F : ℕ × ℕ)
    (load : String → Img) (keys : List (ℕ × ℕ)) (k : ℕ × ℕ)
    (hne : files ≠ []) (hlen : keys.length ≤ files.length) :
    bucketImages (mkProjection files F true load) load keys k
      = (members keys k).map (fun i => load (files.getD i "")) := by
  obtain ⟨f, fs, rfl⟩ : ∃ f fs, files = f :: fs := by
    cases files with
    | nil => exact absurd rfl hne
    | cons f fs => exact ⟨f, fs, rfl⟩
  simp only [bucketImages, mkProjection, if_true, List.map_cons, List.isEmpty_cons,
    Bool.false_eq_true, if_false]
  apply List.map_congr_left
  intro i hi
  have hilt : i < keys.length := ((mem_members keys k i).mp hi).1
  exact getD_map_load (f :: fs) load i (by simpa using lt_of_lt_of_le hilt hlen)

/-- C1: when images are not preloaded, the call loads and uses only the
first image assigned to each bin: for every bin key the tile written to
the canvas is the (uint8 cast of the) single normalized image of the
bin's first member, not a mean over all the bin's images. -/
theorem C1_lazy_tile_is_first_image (files : List String) (F : ℕ × ℕ)
    (load : String → Img) (m : List (ℚ × ℚ)) (bins : ℕ)
    (hb : 1 ≤ bins) (k : ℕ × ℕ) (hk : k ∈ binKeys m bins)
    (dx dy : ℕ) (c : Fin 3) (hdx : dx < F.1) (hdy : dy < F.2) :
    (callImpl (mkProjection files F false load) load m bins).canvas
        (k.1 * F.1 - F.1 / 2 + dx) (k.2 * F.2 - F.2 / 2 + dy) c
      = uint8OfRat (load
          (files.getD ((members (binKeys m bins) k).headD 0) "") dx dy c) := by
  have heval := buildCanvas_eval (mkProjection files F false load) load
    (binKeys m bins)
    (fun k' h' => ⟨(binKeys_bounds m bins hb k' h').1,
                   (binKeys_bounds m bins hb k' h').2.2.1⟩)
    k hk dx dy c hdx hdy
  have hmem : members (binKeys m bins) k ≠ [] := members_ne_nil _ _ hk
  have hbuck : bucketImages (mkProjection files F false load) load (binKeys m bins) k
      = [load (files.getD ((members (binKeys m bins) k).headD 0) "")] := by
    cases hm : members (binKeys m bins) k with
    | nil => exact absurd hm hmem
    | cons i0 t => simp [bucketImages, mkProjection, hm]
  exact heval.trans (by rw [hbuck, meanStack_single])

/-- C1 witness: one point, one file, one bin. -/
theorem C1_witness :
    ((1 : ℕ) ≤ 1 ∧ ((1 : ℕ), (1 : ℕ)) ∈ binKeys [((0 : ℚ), (0 : ℚ))] 1
      ∧ (0 : ℕ) < 1) ∧
    (callImpl (mkProjection ["a"] (1, 1) false load0) load0
        [((0 : ℚ), (0 : ℚ))] 1).canvas
        (((1 : ℕ), (1 : ℕ)).1 * ((1 : ℕ), (1 : ℕ)).1 - ((1 : ℕ), (1 : ℕ)).1 / 2 + 0)
        (((1 : ℕ), (1 : ℕ)).2 * ((1 : ℕ), (1 : ℕ)).2 - ((1 : ℕ), (1 : ℕ)).2 / 2 + 0)
        (0 : Fin 3)
      = uint8OfRat (load0
          (["a"].getD ((members (binKeys [((0 : ℚ), (0 : ℚ))] 1)
            ((1 : ℕ), (1 : ℕ))).headD 0) "") 0 0 (0 : Fin 3)) :=
  ⟨⟨le_refl 1, by rw [binKeys_single]; exact List.mem_singleton.mpr rfl,
    Nat.zero_lt_one⟩,
   C1_lazy_tile_is_first_image ["a"] (1, 1) load0 [((0 : ℚ), (0 : ℚ))] 1
     (le_refl 1) (1, 1) (by rw [binKeys_single]; exact List.mem_singleton.mpr rfl)
     0 0 (0 : Fin 3) Nat.zero_lt_one Nat.zero_lt_one⟩

/-- C3: with preloaded images, for every bin key with at least one
assigned point the tile written to the canvas is the (uint8 cast of the)
element-wise mean of all the normalized images whose embedding
coordinates fall into that bin. -/
theorem C3_preload_tile_is_mean (files : List String) (F : ℕ × ℕ)
    (load : String → Img) (m : List (ℚ × ℚ)) (bins : ℕ)
    (hlen : m.length = files.length) (hb : 1 ≤ bins) (k : ℕ × ℕ)
    (hk : k ∈ binKeys m bins) (dx dy : ℕ) (c : Fin 3)
    (hdx : dx < F.1) (hdy : dy < F.2) :
    (callImpl (mkProjection files F true load) load m bins).canvas
        (k.1 * F.1 - F.1 / 2 + dx) (k.2 * F.2 - F.2 / 2 + dy) c
      = uint8OfRat (meanStack ((members (binKeys m bins) k).map
          (fun i => load (files.getD i ""))) dx dy c) := by
  have hmnil : m ≠ [] := by
    intro h
    rw [h] at hk
    simp [binKeys] at hk
  have hfne : files ≠ [] := by
    intro h
    rw [h] at hlen
    simp at hlen
    exact hmnil hlen
  have hkl : (binKeys m bins).length = m.length := by simp [binKeys]
  have heval := buildCanvas_eval (mkProjection files F true load) load
    (binKeys m bins)
    (fun k' h' => ⟨(binKeys_bounds m bins hb k' h').1,
                   (binKeys_bounds m bins hb k' h').2.2.1⟩)
    k hk dx dy c hdx hdy
  have hbuck := bucketImages_preload files F load (binKeys m bins) k hfne
    (by rw [hkl, hlen])
  exact heval.trans (by rw [hbuck])

/-- C3 witness: one point, one file, one bin, preloaded. -/
theorem C3_witness :
    ([((0 : ℚ), (0 : ℚ))].length = ["a"].length ∧ (1 : ℕ) ≤ 1
      ∧ ((1 : ℕ), (1 : ℕ)) ∈ binKeys [((0 : ℚ), (0 : ℚ))] 1 ∧ (0 : ℕ) < 1) ∧
    (callImpl (mkProjection ["a"] (1, 1) true load0) load0
        [((0 : ℚ), (0 : ℚ))] 1).canvas
        (((1 : ℕ), (1 : ℕ)).1 * ((1 : ℕ), (1 : ℕ)).1 - ((1 : ℕ), (1 : ℕ)).1 / 2 + 0)
        (((1 : ℕ), (1 : ℕ)).2 * ((1 : ℕ), (1 : ℕ)).2 - ((1 : ℕ), (1 : ℕ)).2 / 2 + 0)
        (0 : Fin 3)
      = uint8OfRat (meanStack ((members (binKeys [((0 : ℚ), (0 : ℚ))] 1)
            ((1 : ℕ), (1 : ℕ))).map (fun i => load0 (["a"].getD i "")))
          0 0 (0 : Fin 3)) :=
  ⟨⟨rfl, le_refl 1, by rw [binKeys_single]; exact List.mem_singleton.mpr rfl,
    Nat.zero_lt_one⟩,
   C3_preload_tile_is_mean ["a"] (1, 1) load0 [((0 : ℚ), (0 : ℚ))] 1 rfl
     (le_refl 1) (1, 1) (by rw [binKeys_single]; exact List.mem_singleton.mpr rfl)
     0 0 (0 : Fin 3) Nat.zero_lt_one Nat.zero_lt_one⟩

/-- C6: a single-point manifold (with matching single-element file list)
produces a canvas with exactly one populated tile: every cell outside the
tile of the single bin key is zero, and inside the tile the canvas holds
the single image. -/
theorem C6_single_point_one_tile (f : String) (F : ℕ × ℕ) (preload : Bool)
    (load : String → Img) (x y : ℚ) (bins : ℕ) (hb : 1 ≤ bins) :
    (∀ i j (c : Fin 3),
       ¬ inTile F (F.1 / 2, F.2 / 2) ((binKeys [(x, y)] bins).headD (0, 0)) i j →
       (callImpl (mkProjection [f] F preload load) load [(x, y)] bins).canvas i j c
         = 0) ∧
    (∀ dx dy (c : Fin 3), dx < F.1 → dy < F.2 →
       (callImpl (mkProjection [f] F preload load) load [(x, y)] bins).canvas
         (((binKeys [(x, y)] bins).headD (0, 0)).1 * F.1 - F.1 / 2 + dx)
         (((binKeys [(x, y)] bins).headD (0, 0)).2 * F.2 - F.2 / 2 + dy) c
       = uint8OfRat (load f dx dy c)) := by
  have hkeys : binKeys [(x, y)] bins
      = [(binnumFor [x] bins x, binnumFor [y] bins y)] := by
    simp [binKeys]
  have hhead : (binKeys [(x, y)] bins).headD (0, 0)
      = (binnumFor [x] bins x, binnumFor [y] bins y) := by
    rw [hkeys]
    rfl
  have hcanvas : (callImpl (mkProjection [f] F preload load) load [(x, y)] bins).canvas
      = tileWrite F (F.1 / 2, F.2 / 2) (binnumFor [x] bins x, binnumFor [y] bins y)
          (meanStack [load f]) (fun _ _ _ => 0) := by
    show buildCanvas (mkProjection [f] F preload load) load (binKeys [(x, y)] bins) = _
    rw [hkeys]
    unfold buildCanvas
    rw [uniqueKeys_single, List.foldl_cons, List.foldl_nil, bucketImages_single]
    rfl
  constructor
  · intro i j c hout
    rw [hhead] at hout
    rw [hcanvas]
    unfold tileWrite
    rw [if_neg hout]
  · intro dx dy c hdx hdy
    rw [hhead]
    have hk0mem : (binnumFor [x] bins x, binnumFor [y] bins y)
        ∈ binKeys [(x, y)] bins := by
      rw [hkeys]
      exact List.mem_singleton.mpr rfl
    have heval := buildCanvas_eval (mkProjection [f] F preload load) load
      (binKeys [(x, y)] bins)
      (fun k' h' => ⟨(binKeys_bounds _ bins hb k' h').1,
                     (binKeys_bounds _ bins hb k' h').2.2.1⟩)
      (binnumFor [x] bins x, binnumFor [y] bins y) hk0mem dx dy c hdx hdy
    refine heval.trans ?_
    rw [hkeys, bucketImages_single, meanStack_single]

/-- C6 witness: the point (0, 0) with one file and one bin. -/
theorem C6_witness :
    (1 : ℕ) ≤ 1 ∧
    ((∀ i j (c : Fin 3),
       ¬ inTile (1, 1) ((1 : ℕ) / 2, (1 : ℕ) / 2)
           ((binKeys [((0 : ℚ), (0 : ℚ))] 1).headD (0, 0)) i j →
       (callImpl (mkProjection ["a"] (1, 1) true load0) load0
           [((0 : ℚ), (0 : ℚ))] 1).canvas i j c = 0) ∧
     (∀ dx dy (c : Fin 3), dx < 1 → dy < 1 →
       (callImpl (mkProjection ["a"] (1, 1) true load0) load0
           [((0 : ℚ), (0 : ℚ))] 1).canvas
         (((binKeys [((0 : ℚ), (0 : ℚ))] 1).headD (0, 0)).1 * 1 - 1 / 2 + dx)
         (((binKeys [((0 : ℚ), (0 : ℚ))] 1).headD (0, 0)).2 * 1 - 1 / 2 + dy) c
       = uint8OfRat (load0 "a" dx dy c))) :=
  ⟨le_refl 1,
   C6_single_point_one_tile "a" (1, 1) true load0 0 0 1 (le_refl 1)⟩

/-- C8: every expanded bin number produced by the binning step lies
between 1 and bins inclusive, so every destination slice into the canvas
has a non-negative start index and an end index no larger than the
corresponding canvas dimension: no negative-index wraparound and no
truncation. -/
theorem C8_bin_numbers_and_slices_in_bounds (m : List (ℚ × ℚ)) (bins : ℕ)
    (F : ℕ × ℕ) (hb : 1 ≤ bins) (k : ℕ × ℕ) (hk : k ∈ binKeys m bins) :
    (1 ≤ k.1 ∧ k.1 ≤ bins ∧ 1 ≤ k.2 ∧ k.2 ≤ bins) ∧
    (0 ≤ (k.1 : ℤ) * F.1 - ((F.1 / 2 : ℕ) : ℤ) ∧
     ((k.1 : ℤ) + 1) * F.1 - ((F.1 / 2 : ℕ) : ℤ) ≤ ((canvasShape F bins).1 : ℤ)) ∧
    (0 ≤ (k.2 : ℤ) * F.2 - ((F.2 / 2 : ℕ) : ℤ) ∧
     ((k.2 : ℤ) + 1) * F.2 - ((F.2 / 2 : ℕ) : ℤ) ≤ ((canvasShape F bins).2.1 : ℤ)) := by
  obtain ⟨hk11, hk12, hk21, hk22⟩ := binKeys_bounds m bins hb k hk
  have hA1 : (F.1 : ℤ) ≤ (k.1 : ℤ) * F.1 := by
    exact_mod_cast Nat.le_mul_of_pos_left F.1 (show 0 < k.1 by omega)
  have hB1 : (k.1 : ℤ) * F.1 ≤ (bins : ℤ) * F.1 := by
    exact_mod_cast Nat.mul_le_mul_right F.1 hk12
  have hA2 : (F.2 : ℤ) ≤ (k.2 : ℤ) * F.2 := by
    exact_mod_cast Nat.le_mul_of_pos_left F.2 (show 0 < k.2 by omega)
  have hB2 : (k.2 : ℤ) * F.2 ≤ (bins : ℤ) * F.2 := by
    exact_mod_cast Nat.mul_le_mul_right F.2 hk22
  have hh1 : ((F.1 / 2 : ℕ) : ℤ) ≤ (F.1 : ℤ) := by
    exact_mod_cast Nat.div_le_self F.1 2
  have hh2 : ((F.2 / 2 : ℕ) : ℤ) ≤ (F.2 : ℤ) := by
    exact_mod_cast Nat.div_le_self F.2 2
  have hf1 : (F.1 : ℤ) ≤ (bins : ℤ) + 2 * ((F.1 / 2 : ℕ) : ℤ) := by
    have : F.1 ≤ bins + 2 * (F.1 / 2) := by omega
    exact_mod_cast this
  have hf2 : (F.2 : ℤ) ≤ (bins : ℤ) + 2 * ((F.2 / 2 : ℕ) : ℤ) := by
    have : F.2 ≤ bins + 2 * (F.2 / 2) := by omega
    exact_mod_cast this
  have hc1 : ((canvasShape F bins).1 : ℤ)
      = (bins : ℤ) * F.1 + bins + ((F.1 / 2 : ℕ) : ℤ) := by
    show (((F.1 + 1) * bins + F.1 / 2 : ℕ) : ℤ) = _
    push_cast
    ring
  have hc2 : ((canvasShape F bins).2.1 : ℤ)
      = (bins : ℤ) * F.2 + bins + ((F.2 / 2 : ℕ) : ℤ) := by
    show (((F.2 + 1) * bins + F.2 / 2 : ℕ) : ℤ) = _
    push_cast
    ring
  have hexp1 : ((k.1 : ℤ) + 1) * F.1 = (k.1 : ℤ) * F.1 + F.1 := by ring
  have hexp2 : ((k.2 : ℤ) + 1) * F.2 = (k.2 : ℤ) * F.2 + F.2 := by ring
  refine ⟨⟨hk11, hk12, hk21, hk22⟩, ⟨by linarith, ?_⟩, ⟨by linarith, ?_⟩⟩
  · rw [hexp1, hc1]; linarith
  · rw [hexp2, hc2]; linarith

/-- C8 witness: the single point (0, 0) with bins = 1 is assigned bin key
(1, 1) and its destination slice fits the canvas. -/
theorem C8_witness :
    (1 ≤ 1 ∧ ((1 : ℕ), (1 : ℕ)) ∈ binKeys [((0 : ℚ), (0 : ℚ))] 1) ∧
    ((1 ≤ ((1 : ℕ), (1 : ℕ)).1 ∧ ((1 : ℕ), (1 : ℕ)).1 ≤ 1 ∧
      1 ≤ ((1 : ℕ), (1 : ℕ)).2 ∧ ((1 : ℕ), (1 : ℕ)).2 ≤ 1) ∧
     (0 ≤ ((((1 : ℕ), (1 : ℕ)).1 : ℤ)) * ((64 : ℕ), (64 : ℕ)).1
          - ((((64 : ℕ), (64 : ℕ)).1 / 2 : ℕ) : ℤ) ∧
      (((((1 : ℕ), (1 : ℕ)).1 : ℤ)) + 1) * ((64 : ℕ), (64 : ℕ)).1
          - ((((64 : ℕ), (64 : ℕ)).1 / 2 : ℕ) : ℤ)
        ≤ ((canvasShape ((64 : ℕ), (64 : ℕ)) 1).1 : ℤ)) ∧
     (0 ≤ ((((1 : ℕ), (1 : ℕ)).2 : ℤ)) * ((64 : ℕ), (64 : ℕ)).2
          - ((((64 : ℕ), (64 : ℕ)).2 / 2 : ℕ) : ℤ) ∧
      (((((1 : ℕ), (1 : ℕ)).2 : ℤ)) + 1) * ((64 : ℕ), (64 : ℕ)).2
          - ((((64 : ℕ), (64 : ℕ)).2 / 2 : ℕ) : ℤ)
        ≤ ((canvasShape ((64 : ℕ), (64 : ℕ)) 1).2.1 : ℤ))) :=
  ⟨⟨le_refl 1, by rw [binKeys_single]; exact List.mem_singleton.mpr rfl⟩,
   C8_bin_numbers_and_slices_in_bounds [((0 : ℚ), (0 : ℚ))] 1 (64, 64)
     (le_refl 1) (1, 1) (by rw [binKeys_single]; exact List.mem_singleton.mpr rfl)⟩

/-- C10: the extent returned by the call is the 4-element list
[min x bin edge, max x bin edge, min y bin edge, max y bin edge], and it
satisfies extent[0] ≤ extent[1] and extent[2] ≤ extent[3]. -/
theorem C10_extent_ordered (p : Proj) (load : String → Img)
    (m : List (ℚ × ℚ)) (bins : ℕ) :
    (callImpl p load m bins).extent
      = [listMin (xEdgesOf m bins), listMax (xEdgesOf m bins),
         listMin (yEdgesOf m bins), listMax (yEdgesOf m bins)] ∧
    (callImpl p load m bins).extent.length = 4 ∧
    (callImpl p load m bins).extent.getD 0 0 ≤ (callImpl p load m bins).extent.getD 1 0 ∧
    (callImpl p load m bins).extent.getD 2 0 ≤ (callImpl p load m bins).extent.getD 3 0 := by
  refine ⟨rfl, rfl, ?_, ?_⟩
  · exact listMin_le_listMax _ (edgesList_ne_nil _ _ _)
  · exact listMin_le_listMax _ (edgesList_ne_nil _ _ _)

/-- C4: when the number of manifold rows differs from the number of image
files, the call fails with the assertion error immediately, and the
outcome is independent of the image loader: no image is loaded and no
binning result is used. -/
theorem C4_assert_before_io (p : Proj) (load : String → Img)
    (m : List (ℚ × ℚ)) (bins : ℕ) (h : m.length ≠ p.image_files.length) :
    call p load m bins = Except.error () ∧
    ∀ load₂ : String → Img, call p load₂ m bins = Except.error () := by
  constructor
  · unfold call; rw [if_neg h]
  · intro load₂; unfold call; rw [if_neg h]

/-- C4 witness: an empty manifold against one image file. -/
theorem C4_witness :
    (([] : List (ℚ × ℚ)).length ≠ (Proj.mk ["a"] (1, 1) []).image_files.length) ∧
    (call (Proj.mk ["a"] (1, 1) []) load0 [] 32 = Except.error () ∧
     ∀ load₂ : String → Img,
       call (Proj.mk ["a"] (1, 1) []) load₂ [] 32 = Except.error ()) :=
  ⟨by decide, C4_assert_before_io (Proj.mk ["a"] (1, 1) []) load0 [] 32 (by decide)⟩

/-- C9: the call leaves the object state unchanged in both modes: the
image-file list, the cached images and the output shape are identical
before and after the call; the method returns the state as received. -/
theorem C9_state_unchanged (p : Proj) (load : String → Img)
    (m : List (ℚ × ℚ)) (bins : ℕ) :
    (callM p load m bins).1 = p ∧
    (callM p load m bins).1.image_files = p.image_files ∧
    (callM p load m bins).1.images = p.images ∧
    (callM p load m bins).1.output_shape = p.output_shape :=
  ⟨rfl, rfl, rfl, rfl⟩

/-- C2 counterexample: with output_shape = (2, 2) and bins = 1 the canvas
is allocated with spatial dimensions (2 + 1) * 1 + 2 / 2 = 4, not
2 * (1 + 1) + 2 / 2 = 5 as the claim states. -/
theorem C2_counterexample :
    ¬ ((callImpl (mkProjection ["a"] (2, 2) true load0) load0
          [((0 : ℚ), (0 : ℚ))] 1).shape
       = (2 * (1 + 1) + 2 / 2, 2 * (1 + 1) + 2 / 2, 3)) := by
  decide

/-- C2 amended: the output canvas is sized to bins tiles of
(output_shape[d] + 1) pixels per axis plus a half-tile margin: each
spatial dimension d equals (output_shape[d] + 1) * bins +
output_shape[d] / 2, with 3 channels. -/
theorem C2_amended_canvas_shape (p : Proj) (load : String → Img)
    (m : List (ℚ × ℚ)) (bins : ℕ) (h : m.length = p.image_files.length) :
    ∃ r, call p load m bins = Except.ok r ∧
      r.shape = ((p.output_shape.1 + 1) * bins + p.output_shape.1 / 2,
                 (p.output_shape.2 + 1) * bins + p.output_shape.2 / 2, 3) := by
  refine ⟨callImpl p load m bins, ?_, rfl⟩
  unfold call
  rw [if_pos h]

/-- C2 witness: one point, one file, bins = 1, output shape (2, 2). -/
theorem C2_amended_witness :
    ([((0 : ℚ), (0 : ℚ))].length
       = (mkProjection ["a"] (2, 2) true load0).image_files.length) ∧
    ∃ r, call (mkProjection ["a"] (2, 2) true load0) load0 [((0 : ℚ), (0 : ℚ))] 1
           = Except.ok r ∧
      r.shape = (((mkProjection ["a"] (2, 2) true load0).output_shape.1 + 1) * 1
                   + (mkProjection ["a"] (2, 2) true load0).output_shape.1 / 2,
                 ((mkProjection ["a"] (2, 2) true load0).output_shape.2 + 1) * 1
                   + (mkProjection ["a"] (2, 2) true load0).output_shape.2 / 2, 3) :=
  ⟨by decide,
   C2_amended_canvas_shape (mkProjection ["a"] (2, 2) true load0) load0
     [((0 : ℚ), (0 : ℚ))] 1 (by decide)⟩

theorem npClip_bounds (x lo hi : ℝ) (h : lo ≤ hi) :
    lo ≤ npClip x lo hi ∧ npClip x lo hi ≤ hi := by
  unfold npClip
  exact ⟨le_min (le_max_right x lo) h, min_le_right _ _⟩

/-- C5: for every image processed by the normalizer, after per-channel
normalization every value lies within [-4, 4] (before the final
rescaling step), and every value of the returned image lies within
[0, 255]. -/
theorem C5_normalization_ranges (channels : List (List ℝ)) (n_pixels : ℕ) :
    (∀ d ∈ channels, ∀ v ∈ nrmChannel d n_pixels, -4 ≤ v ∧ v ≤ 4) ∧
    (∀ ch ∈ load_and_normalize channels n_pixels, ∀ v ∈ ch, 0 ≤ v ∧ v ≤ 255) := by
  constructor
  · intro d _ v hv
    rcases List.mem_map.mp hv with ⟨w, _, rfl⟩
    exact npClip_bounds _ (-4) 4 (by norm_num)
  · intro ch hch v hv
    rcases List.mem_map.mp hch with ⟨d2, _, rfl⟩
    rcases List.mem_map.mp hv with ⟨w, _, rfl⟩
    exact npClip_bounds _ 0 255 (by norm_num)

/-- C7: the per-channel normalization divisor is the larger of the
channel standard deviation and 1/sqrt(pixel count); for a positive pixel
count it is at least 1/sqrt(pixel count) and strictly positive, so the
normalizing division never divides by zero or by a near-zero variance. -/
theorem C7_divisor_positive (d : List ℝ) (n_pixels : ℕ) (hn : 0 < n_pixels) :
    a_std d n_pixels = max (npStd d) (1 / Real.sqrt n_pixels) ∧
    1 / Real.sqrt n_pixels ≤ a_std d n_pixels ∧
    npStd d ≤ a_std d n_pixels ∧
    0 < a_std d n_pixels := by
  refine ⟨rfl, le_max_right _ _, le_max_left _ _, ?_⟩
  have h1 : 0 < Real.sqrt n_pixels := Real.sqrt_pos.mpr (by exact_mod_cast hn)
  have h2 : 0 < 1 / Real.sqrt n_pixels := by positivity
  exact lt_of_lt_of_le h2 (le_max_right _ _)

/-- C7 witness: a one-value channel with 4 pixels. -/
theorem C7_witness :
    (0 : ℕ) < 4 ∧
    (a_std [0] 4 = max (npStd [0]) (1 / Real.sqrt ((4 : ℕ) : ℝ)) ∧
     1 / Real.sqrt ((4 : ℕ) : ℝ) ≤ a_std [0] 4 ∧
     npStd [0] ≤ a_std [0] 4 ∧
     0 < a_std [0] 4) :=
  ⟨by decide, C7_divisor_positive [0] 4 (by decide)⟩

end Cellx
